import Mathlib

set_option maxRecDepth 40000

/-!
Verification development for the volatrivia chat trivia engine
(`src/__init__.py`).  The Python source is shallowly embedded:

* strings are `List Char`;
* `Question.cleanup` embeds the case fold plus the repeated
  `re.sub`-to-fixed-point loop over the pattern
  `\s+|[\r\n]+|\b(?:the|an?|of)\b|[.!_,?()-]|<[^<]*>` (the `[\r\n]+`
  alternative is unreachable because `\s+` is tried first and matches any
  run containing `\r` or `\n`); the fixed-point loop is written with an
  explicit fuel that is proved sufficient via a decreasing measure;
* `difflib.SequenceMatcher.ratio` is embedded by its documented
  Ratcliff/Obershelp algorithm: repeatedly take the longest matching
  block (maximal size, then earliest in the first string, then earliest
  in the second) and recurse on both sides; the ratio is `2 * M / T` as a
  rational.  The autojunk heuristic (which only affects second strings of
  length >= 200) is not modelled;
* the mutable controller (`TriviaCommand`) becomes explicit state
  passing over `CState`; Python exceptions become `Except PyErr`;
  network seeding of the pool is a `seedYield` parameter holding whatever
  a refill would append; `post` calls are collected in a `List Post`.
-/

/-- ASCII case folding, modelling `str.casefold` on the ASCII range:
`A`..`Z` (codes 65..90) map 32 codes up to `a`..`z`, all else unchanged. -/
def caseFoldChar (c : Char) : Char :=
  if h : 65 ≤ c.toNat ∧ c.toNat ≤ 90 then
    Char.ofNatAux (c.toNat + 32) (Or.inl (by omega))
  else c

/-- Python's `\s` on the ASCII range: the whitespace class used both by the
cleanup regex and by `str.strip`. -/
def pyIsSpace (c : Char) : Bool :=
  c = ' ' || c = '\t' || c = '\n' || c = '\r' || c = '\x0b' || c = '\x0c'

/-- Python's `\w` on the ASCII range, used for the `\b` word boundaries of
the stop-word alternative of the cleanup regex. -/
def pyIsWord (c : Char) : Bool :=
  ('a' ≤ c && c ≤ 'z') || ('A' ≤ c && c ≤ 'Z') || ('0' ≤ c && c ≤ '9') || c = '_'

/-- Word boundary before the current position: start of string or a
non-word character right before (stop words begin with a word character). -/
def bBefore : Option Char → Bool
  | none => true
  | some c => !pyIsWord c

/-- Word boundary after a stop-word candidate: end of string or a non-word
character next (stop words end with a word character). -/
def bAfter : List Char → Bool
  | [] => true
  | c :: _ => !pyIsWord c

/-- The stop-word alternative `\b(?:the|an?|of)\b` at the current position
(the leading `\b` is checked by the caller).  `an?` is greedy with
backtracking: try `an`, then `a`.  Returns the last matched character, the
matched characters and the remainder. -/
def stopMatch : List Char → Option (Char × List Char × List Char)
  | 't' :: 'h' :: 'e' :: rest =>
    if bAfter rest then some ('e', ['t', 'h', 'e'], rest) else none
  | 'a' :: 'n' :: rest =>
    if bAfter rest then some ('n', ['a', 'n'], rest)
    else if bAfter ('n' :: rest) then some ('a', ['a'], 'n' :: rest)
    else none
  | 'a' :: rest =>
    if bAfter rest then some ('a', ['a'], rest) else none
  | 'o' :: 'f' :: rest =>
    if bAfter rest then some ('f', ['o', 'f'], rest) else none
  | _ => none

/-- Index of the last `>` in a list, for the backtracking of `<[^<]*>`:
the greedy `[^<]*` backtracks to the last `>` inside the run of
non-`<` characters. -/
def lastGt : List Char → Option Nat
  | [] => none
  | c :: cs =>
    match lastGt cs with
    | some i => some (i + 1)
    | none => if c = '>' then some 0 else none

/-- The punctuation class `[.!_,?()-]` of the cleanup regex. -/
def punctChars : List Char := ['.', '!', '_', ',', '?', '(', ')', '-']

/-- One attempt of the cleanup regex at the current position, alternatives
in the pattern's order (`\s+`, stop word, punctuation class, tag; the
`[\r\n]+` alternative is subsumed by `\s+`).  `prev` is the character just
before the position, for the `\b` check.  On success returns the last
matched character (the `prev` for the continuation), the matched
characters and the remainder of the string. -/
def tryMatch (prev : Option Char) (l : List Char) : Option (Char × List Char × List Char) :=
  match l with
  | [] => none
  | c :: cs =>
    if pyIsSpace c then
      let pre := c :: cs.takeWhile pyIsSpace
      some (pre.getLastD c, pre, cs.dropWhile pyIsSpace)
    else
      match (if bBefore prev then stopMatch (c :: cs) else none) with
      | some r => some r
      | none =>
        if c ∈ punctChars then some (c, [c], cs)
        else if c = '<' then
          match lastGt (cs.takeWhile (fun d => !(d = '<'))) with
          | some i => some ('>', '<' :: cs.take (i + 1), cs.drop (i + 1))
          | none => none
        else none

/-- One pass of `r_cleanup.sub(" ", string)`: scan left to right, replace
each match by a single space, keep other characters.  The fuel only bounds
the number of emitted pieces; each step consumes at least one character, so
`l.length` fuel (as used by `subOnce`) never runs out. -/
def subFuel : Nat → Option Char → List Char → List Char
  | 0, _, l => l
  | _ + 1, _, [] => []
  | fuel + 1, prev, c :: cs =>
    match tryMatch prev (c :: cs) with
    | some (last, _, rest) => ' ' :: subFuel fuel (some last) rest
    | none => c :: subFuel fuel (some c) cs

/-- `r_cleanup.sub(" ", string)` for a whole string. -/
def subOnce (l : List Char) : List Char := subFuel l.length none l

/-- Python `str.strip()`: drop leading and trailing whitespace. -/
def pyStrip (l : List Char) : List Char :=
  ((l.dropWhile pyIsSpace).reverse.dropWhile pyIsSpace).reverse

/-- One iteration of the cleanup loop body:
`newstr = cls.r_cleanup.sub(" ", string).strip()`. -/
def cleanupPass (l : List Char) : List Char := pyStrip (subOnce l)

/-- Weight of one character for the termination measure of the cleanup
loop: a plain space weighs 1, anything else 2.  Each pass rewrites matched
chunks to single spaces and strips ends, which never increases the total
weight, and strictly decreases it unless the string is unchanged. -/
def charWeight (c : Char) : Nat := if c = ' ' then 1 else 2

/-- Total weight of a string, the termination measure of the cleanup loop. -/
def Mlist (l : List Char) : Nat := (l.map charWeight).sum

/-- The `while True` fixed-point loop of `Question.cleanup`, with fuel.
`Mlist l + 1` fuel is proved sufficient to reach the fixed point. -/
def loopFuel : Nat → List Char → List Char
  | 0, l => l
  | fuel + 1, l =>
    let t := cleanupPass l
    if t = l then l else loopFuel fuel t

/-- `Question.cleanup`: case fold, then repeat the substitution pass to a
fixed point, exactly as the source's `while True` loop. -/
def Question.cleanup (l : List Char) : List Char :=
  loopFuel (Mlist (l.map caseFoldChar) + 1) (l.map caseFoldChar)

/-- Length of the longest common prefix of two strings. -/
def commonPrefixLen : List Char → List Char → Nat
  | a :: as, b :: bs => if a = b then commonPrefixLen as bs + 1 else 0
  | _, _ => 0

/-- The list `[s, s+1, ..., s+n-1]`, head first (used to scan candidate
match positions in order). -/
def countUp : Nat → Nat → List Nat
  | _, 0 => []
  | s, n + 1 => s :: countUp (s + 1) n

/-- All candidate matching blocks `(i, j, size)` between two strings, in
lexicographic order of `(i, j)`, where `size` is the length of the longest
match starting at `a[i:]` and `b[j:]`. -/
def candidates (a b : List Char) : List (Nat × Nat × Nat) :=
  (countUp 0 (a.length + 1)).flatMap fun i =>
    (countUp 0 (b.length + 1)).map fun j => (i, j, commonPrefixLen (a.drop i) (b.drop j))

/-- Keep the first candidate of maximal size: `SequenceMatcher`'s
`find_longest_match` choice (maximal size, then earliest in `a`, then
earliest in `b`). -/
def pickBest (cs : List (Nat × Nat × Nat)) : Nat × Nat × Nat :=
  cs.foldl (fun best c => if best.2.2 < c.2.2 then c else best) (0, 0, 0)

/-- `find_longest_match` over whole strings (no junk: autojunk only
affects second strings of length at least 200). -/
def findLongestMatch (a b : List Char) : Nat × Nat × Nat :=
  pickBest (candidates a b)

/-- Total size of all matching blocks found by the recursive
Ratcliff/Obershelp procedure of `get_matching_blocks`, with fuel
(`a.length + b.length + 1` suffices, each recursion strictly shrinks the
combined length). -/
def matchTotalF : Nat → List Char → List Char → Nat
  | 0, _, _ => 0
  | fuel + 1, a, b =>
    let t := findLongestMatch a b
    if t.2.2 = 0 then 0
    else
      matchTotalF fuel (a.take t.1) (b.take t.2.1) + t.2.2 +
        matchTotalF fuel (a.drop (t.1 + t.2.2)) (b.drop (t.2.1 + t.2.2))

/-- Total matched size `M` between two strings. -/
def matchTotal (a b : List Char) : Nat := matchTotalF (a.length + b.length + 1) a b

/-- `SequenceMatcher(None, a, b).ratio()` as a rational: `2 * M / T`, and
`1` when both strings are empty (as in difflib's `_calculate_ratio`). -/
def ratioQ (a b : List Char) : ℚ :=
  if a.length + b.length = 0 then 1
  else (2 * matchTotal a b : ℚ) / (a.length + b.length : ℚ)

/-- A question: source id, rendered question text, expected answer. -/
structure Question where
  id : Nat
  question : List Char
  answer : List Char
deriving DecidableEq, Repr

/-- `Question.check`: normalize the submission, reject when the normalized
submission is empty (`not answer or len(answer) < 1` are one condition),
otherwise accept when the similarity ratio against the normalized expected
answer reaches the class threshold `ratio = 0.87` (the float literal is
the rational 87/100). -/
def Question.check (q : Question) (answer : List Char) : Bool :=
  let a := Question.cleanup answer
  if a.isEmpty then false
  else decide ((87 : ℚ) / 100 ≤ ratioQ (Question.cleanup q.answer) a)

/-- A parsed item of source B (jservice), as consumed by `Pool.seed`:
`value` is `none` for a missing or JSON-null `"value"` key. -/
structure ItemB where
  value : Option Int
  question : List Char
  answer : List Char
deriving DecidableEq, Repr

/-- The `"Trivia: {}"` rendering applied to every question. -/
def renderB (i : ItemB) : List Char := ('T' :: 'r' :: 'i' :: 'v' :: 'i' :: 'a' :: ':' :: ' ' :: []) ++ i.question

/-- The effective point value of a source B item:
`value = i.get("value", 0) or 1000` — a missing, null or zero value is
falsy and becomes 1000. -/
def effValue (i : ItemB) : Int :=
  match i.value with
  | none => 1000
  | some v => if v = 0 then 1000 else v

/-- The source-B loop body of `Pool.seed`: skip an item when its effective
value exceeds 800, render the question, skip when the rendered text
exceeds 300 characters, otherwise enqueue `Question(0, question, answer)`.
(The surrounding fetch, the source-A loop and the final shuffle do not
affect which source-B items are enqueued.) -/
def sourceBQuestions (items : List ItemB) : List Question :=
  items.filterMap fun i =>
    if 800 < effValue i then none
    else if 300 < (renderB i).length then none
    else some ⟨0, renderB i, i.answer⟩

/-- Digit value of an ASCII digit. -/
def digitVal (c : Char) : Nat := c.toNat - '0'.toNat

/-- Digits of a Python integer literal after the first digit: single
underscores are allowed between digits only. -/
def pdAux : List Char → Nat → Option Nat
  | [], acc => some acc
  | '_' :: d :: rest, acc =>
    if d.isDigit then pdAux rest (acc * 10 + digitVal d) else none
  | '_' :: [], _ => none
  | c :: rest, acc =>
    if c.isDigit then pdAux rest (acc * 10 + digitVal c) else none

/-- An unsigned Python integer literal: nonempty, starts with a digit. -/
def pyIntNat : List Char → Option Nat
  | [] => none
  | c :: rest => if c.isDigit then pdAux (c :: rest) 0 else none

/-- Python `int(s)` for decimal strings: strip whitespace, optional sign,
digits with underscore grouping; `none` models `ValueError`. -/
def pyInt (l : List Char) : Option Int :=
  match pyStrip l with
  | '+' :: rest => (pyIntNat rest).map Int.ofNat
  | '-' :: rest => (pyIntNat rest).map fun n => -(n : Int)
  | l' => (pyIntNat l').map Int.ofNat

/-- The three-way result of `Game.check` (`Result` enum). -/
inductive Result where
  | correct
  | incorrect
  | won
deriving DecidableEq, Repr

/-- Python exceptions that can escape the embedded code:
`ValueError("no question asked")` from `Game.check`, and `AttributeError`
from attribute access on `None`. -/
inductive PyErr where
  | valueError
  | attributeError
deriving DecidableEq, Repr

/-- One outbound `self.post(...)` call, by template.  The leaderboard
rendering (`Game.__str__`) is not modelled: no claim concerns its text. -/
inductive Post where
  | leaderboard
  | started (towin : Nat)
  | winrar (nick : String)
  | indeed (nick : String) (answer : List Char)
  | question (q : Option Question)
  | tooSlow (answer : List Char)
deriving DecidableEq, Repr

/-- Per-player score tally (`collections.Counter` keyed by nick; counts
only ever increase from 0, so `Nat` values). -/
def getCount (counts : List (String × Nat)) (k : String) : Nat :=
  (counts.lookup k).getD 0

/-- `counts[answerer] += 1` on the association-list model of `Counter`. -/
def bumpCount : List (String × Nat) → String → List (String × Nat)
  | [], k => [(k, 1)]
  | (k', v) :: rest, k =>
    if k' = k then (k', v + 1) :: rest else (k', v) :: bumpCount rest k

/-- The `Game` object: win threshold, per-player tally, current question
(`_question`, `None` when a fresh question is due). -/
structure Game where
  towin : Nat
  counts : List (String × Nat)
  _question : Option Question
deriving DecidableEq, Repr

/-- `Game.__init__(towin)`. -/
def Game.new (towin : Nat) : Game := ⟨towin, [], none⟩

/-- `Game.check(answerer, answer)`: `ValueError` when no question is
active; on a match bump the player's tally and signal `WON` when it
reaches `towin`, else `CORRECT`; on a mismatch signal `INCORRECT` with
nothing changed. -/
def Game.check (g : Game) (answerer : String) (answer : List Char) : Except PyErr (Result × Game) :=
  match g._question with
  | none => .error .valueError
  | some q =>
    if q.check answer then
      let counts' := bumpCount g.counts answerer
      let g' := { g with counts := counts' }
      if g.towin ≤ getCount counts' answerer then .ok (.won, g') else .ok (.correct, g')
    else .ok (.incorrect, g)

/-- `Game.skip()`: clear the current question. -/
def Game.skip (g : Game) : Game := { g with _question := none }

/-- `Pool.get_question()` on an explicit pool: seed when empty
(`seedYield` is whatever the refill would append, already shuffled), then
pop the last question or return `None` when still empty. -/
def Pool.get_question (pool seedYield : List Question) : Option Question × List Question :=
  let pool1 := if pool.isEmpty then seedYield else pool
  match pool1.getLast? with
  | none => (none, pool1)
  | some q => (some q, pool1.dropLast)

/-- The `Game.question` property: return the current question, lazily
pulling one from the pool (`Pool.question()`) when unset; the pulled value
is stored even when it is `None`. -/
def Game.question (g : Game) (pool seedYield : List Question) :
    Option Question × Game × List Question :=
  match g._question with
  | some q => (some q, g, pool)
  | none =>
    let r := Pool.get_question pool seedYield
    (r.1, { g with _question := r.1 }, r.2)

/-- The controller state of `TriviaCommand` together with the singleton
pool it draws from: `game is None` means idle, `deadline = 0` is the
"question not yet announced" sentinel. -/
structure CState where
  pool : List Question
  game : Option Game
  deadline : Nat
deriving DecidableEq, Repr

/-- `TriviaCommand.handles`: the routing predicate — the literal start
command always, any line while a game is active. -/
def TriviaCommand.handles (s : CState) (cmd : String) : Bool :=
  cmd = "!trivia" || s.game.isSome

/-- `TriviaCommand.__call__(cmd, remainder, msg)`: the chat-line handler.
`allowed` is the external authorization gate; `seedYield` feeds a pool
refill if one happens.  Returns the new state, the posts, and whether the
event was consumed; `Except.error` models an escaping exception. -/
def TriviaCommand.call (s : CState) (cmd : String) (remainder : List Char)
    (nick : String) (msgText : List Char) (allowed : Bool) (seedYield : List Question) :
    Except PyErr (CState × List Post × Bool) :=
  if !allowed then .ok (s, [], false)
  else if cmd = "!trivia" then
    match s.game with
    | some _ => .ok (s, [.leaderboard], true)
    | none =>
      let towin : Nat :=
        match pyInt remainder with
        | some n => (max 1 n).toNat
        | none => 5
      .ok ({ s with deadline := 0, game := some (Game.new towin) }, [.started towin], true)
  else
    match s.game with
    | none => .error .attributeError
    | some g =>
      match g.check nick msgText with
      | .error e => .error e
      | .ok (res, g') =>
        match res with
        | .won => .ok ({ s with game := none }, [.winrar nick], true)
        | .correct =>
          let r := g'.question s.pool seedYield
          match r.1 with
          | none => .error .attributeError
          | some q =>
            .ok ({ s with pool := r.2.2, game := some r.2.1.skip, deadline := 0 },
              [.indeed nick q.answer], true)
        | .incorrect => .ok (s, [], false)

/-- `TriviaCommand.onpulse`: the periodic tick.  Idle: no-op.  Deadline
unset: set it to `now + timeout` (timeout 30) and post the question
(possibly the absent question, rendered as text).  Deadline passed: post
the reveal (`AttributeError` when the question pull comes back `None`),
skip, reset the deadline.  Otherwise: no-op. -/
def TriviaCommand.onpulse (s : CState) (now : Nat) (seedYield : List Question) :
    Except PyErr (CState × List Post) :=
  match s.game with
  | none => .ok (s, [])
  | some g =>
    if s.deadline = 0 then
      let r := g.question s.pool seedYield
      .ok ({ pool := r.2.2, game := some r.2.1, deadline := now + 30 }, [.question r.1])
    else if s.deadline ≤ now then
      let r := g.question s.pool seedYield
      match r.1 with
      | none => .error .attributeError
      | some q =>
        .ok ({ pool := r.2.2, game := some r.2.1.skip, deadline := 0 }, [.tooSlow q.answer])
    else .ok (s, [])

/-- Reachable controller states: the fresh controller (empty singleton
pool, no game, deadline sentinel), plus any state produced by a routed
chat line (`handles` admitted it) or a tick that completed without an
exception.  `allowed` and `seedYield` are chosen by the environment. -/
inductive Reachable : CState → Prop where
  | init : Reachable ⟨[], none, 0⟩
  | chat : ∀ {s s' : CState} (cmd : String) (rem : List Char) (nick : String)
      (txt : List Char) (allowed : Bool) (seedYield : List Question)
      (posts : List Post) (consumed : Bool),
      Reachable s → TriviaCommand.handles s cmd = true →
      TriviaCommand.call s cmd rem nick txt allowed seedYield = .ok (s', posts, consumed) →
      Reachable s'
  | pulse : ∀ {s s' : CState} (now : Nat) (seedYield : List Question) (posts : List Post),
      Reachable s → TriviaCommand.onpulse s now seedYield = .ok (s', posts) →
      Reachable s'

/-- The string "zabcd" (already in cleanup normal form), used in concrete
instances below. -/
def zabL : List Char := ['z', 'a', 'b', 'c', 'd']

/-- The string "cdzwab" (already in cleanup normal form), used in concrete
instances below. -/
def cdzwabL : List Char := ['c', 'd', 'z', 'w', 'a', 'b']

/-- A concrete sample question whose expected answer is "zabcd". -/
def qZab : Question := ⟨0, ['q'], zabL⟩

theorem Mlist_append (a b : List Char) : Mlist (a ++ b) = Mlist a + Mlist b := by
  simp [Mlist]

theorem Mlist_cons (c : Char) (l : List Char) :
    Mlist (c :: l) = charWeight c + Mlist l := by
  simp [Mlist]

theorem one_le_charWeight (c : Char) : 1 ≤ charWeight c := by
  unfold charWeight; split <;> omega

theorem one_le_Mlist {l : List Char} (h : l ≠ []) : 1 ≤ Mlist l := by
  match l with
  | c :: t =>
    have := one_le_charWeight c
    rw [Mlist_cons]; omega

theorem two_le_Mlist {l : List Char} (h1 : l ≠ []) (h2 : l ≠ [' ']) : 2 ≤ Mlist l := by
  match l with
  | [c] =>
    have hc : c ≠ ' ' := fun h => h2 (by rw [h])
    simp [Mlist, charWeight, hc]
  | c :: d :: t =>
    have h1 := one_le_charWeight c
    have h2 := one_le_charWeight d
    have h3 : 0 ≤ Mlist t := Nat.zero_le _
    rw [Mlist_cons, Mlist_cons]; omega

theorem stopMatch_inv {l : List Char} {last : Char} {pre rest : List Char}
    (h : stopMatch l = some (last, pre, rest)) : pre ++ rest = l ∧ pre ≠ [] := by
  unfold stopMatch at h
  (split at h) <;> (try split_ifs at h) <;> (cases h) <;> (exact ⟨rfl, by simp⟩)

theorem tryMatch_inv {prev : Option Char} {l : List Char} {last : Char} {pre rest : List Char}
    (h : tryMatch prev l = some (last, pre, rest)) : pre ++ rest = l ∧ pre ≠ [] := by
  match l with
  | [] => simp [tryMatch] at h
  | c :: cs =>
    rw [tryMatch] at h
    by_cases hsp : pyIsSpace c
    · rw [if_pos hsp] at h
      simp only [Option.some.injEq, Prod.mk.injEq] at h
      obtain ⟨-, h2, h3⟩ := h
      subst h2; subst h3
      refine ⟨?_, by simp⟩
      rw [List.cons_append, List.takeWhile_append_dropWhile]
    · rw [if_neg hsp] at h
      cases hbb : (if bBefore prev then stopMatch (c :: cs) else none) with
      | some r =>
        simp only [hbb] at h
        cases h
        by_cases hb : bBefore prev
        · rw [if_pos hb] at hbb
          exact stopMatch_inv hbb
        · rw [if_neg hb] at hbb
          cases hbb
      | none =>
        simp only [hbb] at h
        by_cases hp : c ∈ punctChars
        · rw [if_pos hp] at h
          simp only [Option.some.injEq, Prod.mk.injEq] at h
          obtain ⟨-, h2, h3⟩ := h
          subst h2; subst h3
          exact ⟨rfl, by simp⟩
        · rw [if_neg hp] at h
          by_cases hlt : c = '<'
          · rw [if_pos hlt] at h
            cases hg : lastGt (cs.takeWhile fun d => !(d = '<')) with
            | some i =>
              simp only [hg] at h
              simp only [Option.some.injEq, Prod.mk.injEq] at h
              obtain ⟨-, h2, h3⟩ := h
              subst h2; subst h3
              subst hlt
              refine ⟨?_, by simp⟩
              rw [List.cons_append, List.take_append_drop]
            | none =>
              simp only [hg] at h
              cases h
          · rw [if_neg hlt] at h
            cases h

theorem subFuel_M (f : Nat) : ∀ (prev : Option Char) (l : List Char),
    subFuel f prev l = l ∨ Mlist (subFuel f prev l) < Mlist l := by
  induction f with
  | zero => intro prev l; left; rfl
  | succ f ih =>
    intro prev l
    match l with
    | [] => left; rfl
    | c :: cs =>
      have hle : ∀ (p : Option Char) (m : List Char), Mlist (subFuel f p m) ≤ Mlist m := by
        intro p m
        rcases ih p m with h | h
        · rw [h]
        · exact Nat.le_of_lt h
      cases htm : tryMatch prev (c :: cs) with
      | none =>
        simp only [subFuel, htm]
        rcases ih (some c) cs with h | h
        · left; rw [h]
        · right
          rw [Mlist_cons, Mlist_cons]
          omega
      | some r =>
        obtain ⟨last, pre, rest⟩ := r
        obtain ⟨happ, hne⟩ := tryMatch_inv htm
        simp only [subFuel, htm]
        by_cases hp : pre = [' ']
        · subst hp
          simp only [List.cons_append, List.nil_append] at happ
          obtain ⟨hc, hcs⟩ := List.cons.injEq .. ▸ happ
          rcases ih (some last) rest with h | h
          · left; rw [h, hc, hcs]
          · right
            rw [← hc, ← hcs, Mlist_cons, Mlist_cons]
            have : charWeight ' ' = 1 := rfl
            omega
        · right
          have h2 : 2 ≤ Mlist pre := two_le_Mlist hne hp
          have h3 : Mlist (subFuel f (some last) rest) ≤ Mlist rest := hle _ _
          have h4 : Mlist (c :: cs) = Mlist pre + Mlist rest := by
            rw [← happ, Mlist_append]
          rw [Mlist_cons, h4]
          have : charWeight ' ' = 1 := rfl
          omega

theorem subFuel_M_le (f : Nat) (prev : Option Char) (l : List Char) :
    Mlist (subFuel f prev l) ≤ Mlist l := by
  rcases subFuel_M f prev l with h | h
  · rw [h]
  · exact Nat.le_of_lt h

theorem dropWhile_M (p : Char → Bool) (l : List Char) :
    l.dropWhile p = l ∨ Mlist (l.dropWhile p) < Mlist l := by
  induction l with
  | nil => left; rfl
  | cons c cs ih =>
    by_cases h : p c
    · right
      rw [List.dropWhile_cons_of_pos h]
      have hle : Mlist (cs.dropWhile p) ≤ Mlist cs := by
        rcases ih with h' | h'
        · rw [h']
        · exact Nat.le_of_lt h'
      have := one_le_charWeight c
      rw [Mlist_cons]; omega
    · left
      rw [List.dropWhile_cons_of_neg h]

theorem dropWhile_M_le (p : Char → Bool) (l : List Char) :
    Mlist (l.dropWhile p) ≤ Mlist l := by
  rcases dropWhile_M p l with h | h
  · rw [h]
  · exact Nat.le_of_lt h

theorem Mlist_reverse (l : List Char) : Mlist l.reverse = Mlist l := by
  unfold Mlist
  rw [List.map_reverse, List.sum_reverse]

theorem pyStrip_M (l : List Char) : pyStrip l = l ∨ Mlist (pyStrip l) < Mlist l := by
  unfold pyStrip
  rcases dropWhile_M pyIsSpace l with h1 | h1 <;>
    rcases dropWhile_M pyIsSpace (l.dropWhile pyIsSpace).reverse with h2 | h2
  · left; rw [h2, List.reverse_reverse, h1]
  · right
    calc Mlist ((l.dropWhile pyIsSpace).reverse.dropWhile pyIsSpace).reverse
        = Mlist ((l.dropWhile pyIsSpace).reverse.dropWhile pyIsSpace) := Mlist_reverse _
      _ < Mlist (l.dropWhile pyIsSpace).reverse := h2
      _ = Mlist (l.dropWhile pyIsSpace) := Mlist_reverse _
      _ = Mlist l := by rw [h1]
  · right
    calc Mlist ((l.dropWhile pyIsSpace).reverse.dropWhile pyIsSpace).reverse
        = Mlist ((l.dropWhile pyIsSpace).reverse.dropWhile pyIsSpace) := Mlist_reverse _
      _ = Mlist (l.dropWhile pyIsSpace).reverse := by rw [h2]
      _ = Mlist (l.dropWhile pyIsSpace) := Mlist_reverse _
      _ < Mlist l := h1
  · right
    calc Mlist ((l.dropWhile pyIsSpace).reverse.dropWhile pyIsSpace).reverse
        = Mlist ((l.dropWhile pyIsSpace).reverse.dropWhile pyIsSpace) := Mlist_reverse _
      _ < Mlist (l.dropWhile pyIsSpace).reverse := h2
      _ = Mlist (l.dropWhile pyIsSpace) := Mlist_reverse _
      _ ≤ Mlist l := Nat.le_of_lt h1

theorem pyStrip_M_le (l : List Char) : Mlist (pyStrip l) ≤ Mlist l := by
  rcases pyStrip_M l with h | h
  · rw [h]
  · exact Nat.le_of_lt h

theorem cleanupPass_M (l : List Char) :
    cleanupPass l = l ∨ Mlist (cleanupPass l) < Mlist l := by
  unfold cleanupPass subOnce
  rcases subFuel_M l.length none l with h | h
  · rw [h]; exact pyStrip_M l
  · right
    have := pyStrip_M_le (subFuel l.length none l)
    omega

theorem loopFuel_fix (f : Nat) : ∀ l : List Char, Mlist l < f →
    cleanupPass (loopFuel f l) = loopFuel f l := by
  induction f with
  | zero => intro l h; omega
  | succ f ih =>
    intro l h
    by_cases hfix : cleanupPass l = l
    · simp [loopFuel, hfix]
    · have hlt : Mlist (cleanupPass l) < Mlist l := by
        rcases cleanupPass_M l with h' | h'
        · exact absurd h' hfix
        · exact h'
      simp only [loopFuel, if_neg hfix]
      exact ih (cleanupPass l) (by omega)

theorem loopFuel_of_fix (f : Nat) (l : List Char) (h : cleanupPass l = l) :
    loopFuel f l = l := by
  cases f with
  | zero => rfl
  | succ f => simp [loopFuel, h]

theorem cleanup_is_fix (l : List Char) :
    cleanupPass (Question.cleanup l) = Question.cleanup l := by
  unfold Question.cleanup
  exact loopFuel_fix _ _ (Nat.lt_succ_self _)

theorem subFuel_chars (f : Nat) : ∀ (prev : Option Char) (l : List Char) (x : Char),
    x ∈ subFuel f prev l → x ∈ l ∨ x = ' ' := by
  induction f with
  | zero => intro prev l x hx; left; exact hx
  | succ f ih =>
    intro prev l x hx
    match l with
    | [] => simp [subFuel] at hx
    | c :: cs =>
      cases htm : tryMatch prev (c :: cs) with
      | none =>
        simp only [subFuel, htm] at hx
        rcases List.mem_cons.mp hx with h | h
        · left; exact h ▸ List.mem_cons_self c cs
        · rcases ih (some c) cs x h with h' | h'
          · left; exact List.mem_cons_of_mem c h'
          · right; exact h'
      | some r =>
        obtain ⟨last, pre, rest⟩ := r
        obtain ⟨happ, -⟩ := tryMatch_inv htm
        simp only [subFuel, htm] at hx
        rcases List.mem_cons.mp hx with h | h
        · right; exact h
        · rcases ih (some last) rest x h with h' | h'
          · left
            rw [← happ]
            exact List.mem_append_right pre h'
          · right; exact h'

theorem pyStrip_chars (l : List Char) (x : Char) (hx : x ∈ pyStrip l) : x ∈ l := by
  unfold pyStrip at hx
  rw [List.mem_reverse] at hx
  have h1 := (List.dropWhile_sublist (l := (l.dropWhile pyIsSpace).reverse) pyIsSpace).subset hx
  rw [List.mem_reverse] at h1
  exact (List.dropWhile_sublist (l := l) pyIsSpace).subset h1

theorem cleanupPass_chars (l : List Char) (x : Char) (hx : x ∈ cleanupPass l) :
    x ∈ l ∨ x = ' ' := by
  unfold cleanupPass subOnce at hx
  exact subFuel_chars l.length none l x (pyStrip_chars _ _ hx)

theorem cf_toNat (c : Char) (h : 65 ≤ c.toNat ∧ c.toNat ≤ 90) :
    (caseFoldChar c).toNat = c.toNat + 32 := by
  unfold caseFoldChar
  rw [dif_pos h]
  rfl

theorem cf_id_of_not (c : Char) (h : ¬(65 ≤ c.toNat ∧ c.toNat ≤ 90)) :
    caseFoldChar c = c := dif_neg h

theorem cf_idem (c : Char) : caseFoldChar (caseFoldChar c) = caseFoldChar c := by
  by_cases h : 65 ≤ c.toNat ∧ c.toNat ≤ 90
  · refine cf_id_of_not _ ?_
    rw [cf_toNat c h]
    omega
  · rw [cf_id_of_not c h]
    exact cf_id_of_not c h

theorem loopFuel_cfFixed (f : Nat) : ∀ l : List Char,
    (∀ c ∈ l, caseFoldChar c = c) → ∀ c ∈ loopFuel f l, caseFoldChar c = c := by
  induction f with
  | zero => intro l hl; exact hl
  | succ f ih =>
    intro l hl c
    by_cases hfix : cleanupPass l = l
    · simp only [loopFuel, if_pos hfix]
      exact hl c
    · simp only [loopFuel, if_neg hfix]
      refine ih (cleanupPass l) ?_ c
      intro d hd
      rcases cleanupPass_chars l d hd with h | h
      · exact hl d h
      · rw [h]; rfl

theorem cleanup_cfFixed (l : List Char) :
    ∀ c ∈ Question.cleanup l, caseFoldChar c = c := by
  unfold Question.cleanup
  refine loopFuel_cfFixed _ _ ?_
  intro c hc
  obtain ⟨d, -, hd⟩ := List.mem_map.mp hc
  rw [← hd]
  exact cf_idem d

theorem map_cf_of_fixed {l : List Char} (h : ∀ c ∈ l, caseFoldChar c = c) :
    l.map caseFoldChar = l := by
  induction l with
  | nil => rfl
  | cons c cs ih =>
    rw [List.map_cons, h c (List.mem_cons_self c cs),
      ih fun d hd => h d (List.mem_cons_of_mem c hd)]

/-- Claim C8: text normalization is idempotent — for every string `s`,
`Question.cleanup (Question.cleanup s) = Question.cleanup s`: the result of
the case-fold plus substitution-to-fixed-point loop is itself a fixed
point of the pass and is already case folded, so a second run returns it
unchanged. -/
theorem cleanup_idempotent (l : List Char) :
    Question.cleanup (Question.cleanup l) = Question.cleanup l := by
  have hmap : (Question.cleanup l).map caseFoldChar = Question.cleanup l :=
    map_cf_of_fixed (cleanup_cfFixed l)
  show loopFuel (Mlist ((Question.cleanup l).map caseFoldChar) + 1)
      ((Question.cleanup l).map caseFoldChar) = Question.cleanup l
  rw [hmap]
  exact loopFuel_of_fix _ _ (cleanup_is_fix l)

theorem cp_le_left : ∀ a b : List Char, commonPrefixLen a b ≤ a.length := by
  intro a
  induction a with
  | nil => intro b; cases b <;> simp [commonPrefixLen]
  | cons x xs ih =>
    intro b
    cases b with
    | nil => simp [commonPrefixLen]
    | cons y ys =>
      simp only [commonPrefixLen, List.length_cons]
      split_ifs
      · have := ih ys; omega
      · omega

theorem cp_le_right : ∀ a b : List Char, commonPrefixLen a b ≤ b.length := by
  intro a
  induction a with
  | nil => intro b; cases b <;> simp [commonPrefixLen]
  | cons x xs ih =>
    intro b
    cases b with
    | nil => simp [commonPrefixLen]
    | cons y ys =>
      simp only [commonPrefixLen, List.length_cons]
      split_ifs
      · have := ih ys; omega
      · omega

theorem cp_self : ∀ l : List Char, commonPrefixLen l l = l.length := by
  intro l
  induction l with
  | nil => rfl
  | cons x xs ih => simp [commonPrefixLen, ih]

theorem countUp_mem_lt : ∀ (n s x : Nat), x ∈ countUp s n → x < s + n := by
  intro n
  induction n with
  | zero => intro s x hx; simp [countUp] at hx
  | succ n ih =>
    intro s x hx
    rcases List.mem_cons.mp hx with h | h
    · omega
    · have := ih (s + 1) x h; omega

theorem candidates_ok (a b : List Char) : ∀ t ∈ candidates a b,
    t.1 + t.2.2 ≤ a.length ∧ t.2.1 + t.2.2 ≤ b.length := by
  intro t ht
  unfold candidates at ht
  rw [List.mem_flatMap] at ht
  obtain ⟨i, hi, ht⟩ := ht
  rw [List.mem_map] at ht
  obtain ⟨j, hj, rfl⟩ := ht
  have hia : i < 0 + (a.length + 1) := countUp_mem_lt _ _ _ hi
  have hjb : j < 0 + (b.length + 1) := countUp_mem_lt _ _ _ hj
  constructor
  · have h1 := cp_le_left (a.drop i) (b.drop j)
    rw [List.length_drop] at h1
    simp only
    omega
  · have h1 := cp_le_right (a.drop i) (b.drop j)
    rw [List.length_drop] at h1
    simp only
    omega

theorem foldl_best_ok {P : Nat × Nat × Nat → Prop} :
    ∀ (cs : List (Nat × Nat × Nat)) (init : Nat × Nat × Nat), P init → (∀ c ∈ cs, P c) →
    P (cs.foldl (fun best c => if best.2.2 < c.2.2 then c else best) init) := by
  intro cs
  induction cs with
  | nil => intro init hi _; exact hi
  | cons c cs ih =>
    intro init hi hc
    rw [List.foldl_cons]
    refine ih _ ?_ fun d hd => hc d (List.mem_cons_of_mem _ hd)
    split_ifs
    · exact hc c (List.mem_cons_self _ _)
    · exact hi

theorem flm_ok (a b : List Char) :
    (findLongestMatch a b).1 + (findLongestMatch a b).2.2 ≤ a.length ∧
    (findLongestMatch a b).2.1 + (findLongestMatch a b).2.2 ≤ b.length := by
  unfold findLongestMatch pickBest
  exact foldl_best_ok _ _ ⟨by simp, by simp⟩ (candidates_ok a b)

theorem foldl_stay : ∀ (cs : List (Nat × Nat × Nat)) (b : Nat × Nat × Nat),
    (∀ c ∈ cs, c.2.2 ≤ b.2.2) →
    cs.foldl (fun best c => if best.2.2 < c.2.2 then c else best) b = b := by
  intro cs
  induction cs with
  | nil => intro b _; rfl
  | cons c cs ih =>
    intro b h
    rw [List.foldl_cons]
    have hc : c.2.2 ≤ b.2.2 := h c (List.mem_cons_self _ _)
    rw [if_neg (by omega)]
    exact ih b fun d hd => h d (List.mem_cons_of_mem _ hd)

theorem pickBest_head_max (x : Nat × Nat × Nat) (rest : List (Nat × Nat × Nat))
    (hx : 0 < x.2.2) (hr : ∀ c ∈ rest, c.2.2 ≤ x.2.2) : pickBest (x :: rest) = x := by
  unfold pickBest
  rw [List.foldl_cons, if_pos hx]
  exact foldl_stay rest x hr

theorem flm_self (l : List Char) (h : l ≠ []) :
    findLongestMatch l l = (0, 0, l.length) := by
  obtain ⟨rest, hrest⟩ : ∃ rest,
      candidates l l = (0, 0, commonPrefixLen l l) :: rest :=
    ⟨_, by
      unfold candidates
      rw [show countUp 0 (l.length + 1) = 0 :: countUp 1 l.length from rfl,
        List.flatMap_cons, List.map_cons, List.cons_append, List.drop_zero]⟩
  rw [cp_self] at hrest
  have hmem : ∀ c ∈ rest, c.2.2 ≤ (0, 0, l.length).2.2 := by
    intro c hc
    have hcm : c ∈ candidates l l := by
      rw [hrest]; exact List.mem_cons_of_mem _ hc
    have := (candidates_ok l l c hcm).1
    simp only
    omega
  unfold findLongestMatch
  rw [hrest]
  exact pickBest_head_max _ _ (by simpa using List.length_pos.mpr h) hmem

theorem matchTotalF_le (f : Nat) : ∀ a b : List Char,
    matchTotalF f a b ≤ a.length ∧ matchTotalF f a b ≤ b.length := by
  induction f with
  | zero => intro a b; exact ⟨Nat.zero_le _, Nat.zero_le _⟩
  | succ f ih =>
    intro a b
    obtain ⟨hoa, hob⟩ := flm_ok a b
    by_cases hk : (findLongestMatch a b).2.2 = 0
    · simp only [matchTotalF, if_pos hk]
      exact ⟨Nat.zero_le _, Nat.zero_le _⟩
    · simp only [matchTotalF, if_neg hk]
      obtain ⟨hta, -⟩ := ih (a.take (findLongestMatch a b).1) (b.take (findLongestMatch a b).2.1)
      obtain ⟨-, htb⟩ := ih (a.take (findLongestMatch a b).1) (b.take (findLongestMatch a b).2.1)
      obtain ⟨hda, -⟩ := ih (a.drop ((findLongestMatch a b).1 + (findLongestMatch a b).2.2))
        (b.drop ((findLongestMatch a b).2.1 + (findLongestMatch a b).2.2))
      obtain ⟨-, hdb⟩ := ih (a.drop ((findLongestMatch a b).1 + (findLongestMatch a b).2.2))
        (b.drop ((findLongestMatch a b).2.1 + (findLongestMatch a b).2.2))
      rw [List.length_take] at hta htb
      rw [List.length_drop] at hda hdb
      have h1 := Nat.min_le_left (findLongestMatch a b).1 a.length
      have h2 := Nat.min_le_left (findLongestMatch a b).2.1 b.length
      constructor <;> omega

theorem matchTotal_le (a b : List Char) :
    matchTotal a b ≤ a.length ∧ matchTotal a b ≤ b.length :=
  matchTotalF_le _ a b

theorem matchTotalF_nil : ∀ f : Nat, matchTotalF f [] [] = 0 := by
  intro f
  cases f with
  | zero => rfl
  | succ f => rfl

theorem matchTotal_self (l : List Char) (h : l ≠ []) : matchTotal l l = l.length := by
  unfold matchTotal
  simp only [matchTotalF]
  rw [flm_self l h]
  have hn : l.length ≠ 0 := fun hh => h (List.eq_nil_of_length_eq_zero hh)
  rw [if_neg (by simpa using hn)]
  simp only [List.take_zero, Nat.zero_add, List.drop_length, matchTotalF_nil]
  omega

theorem ratioQ_self (l : List Char) (h : l ≠ []) : ratioQ l l = 1 := by
  unfold ratioQ
  have hn : l.length ≠ 0 := fun hh => h (List.eq_nil_of_length_eq_zero hh)
  rw [if_neg (by omega), matchTotal_self l h]
  have hq : ((l.length : ℚ)) ≠ 0 := Nat.cast_ne_zero.mpr hn
  field_simp
  ring

theorem ratioQ_threshold (a b : List Char) :
    ((87 : ℚ) / 100 ≤ ratioQ a b) ↔
    87 * (a.length + b.length) ≤ 200 * matchTotal a b := by
  unfold ratioQ
  by_cases hT : a.length + b.length = 0
  · rw [if_pos hT, hT]
    norm_num
  · rw [if_neg hT]
    have hTq : (0 : ℚ) < (a.length : ℚ) + (b.length : ℚ) := by
      have h1 := Nat.pos_of_ne_zero hT
      have h2 : ((0 : ℕ) : ℚ) < ((a.length + b.length : ℕ) : ℚ) := Nat.cast_lt.mpr h1
      push_cast at h2
      linarith
    rw [div_le_div_iff₀ (by norm_num) hTq]
    constructor
    · intro hq
      have hq2 : ((87 * (a.length + b.length) : ℕ) : ℚ) ≤ ((200 * matchTotal a b : ℕ) : ℚ) := by
        push_cast
        push_cast at hq
        linarith
      exact_mod_cast hq2
    · intro hn
      have hq2 : ((87 * (a.length + b.length) : ℕ) : ℚ) ≤ ((200 * matchTotal a b : ℕ) : ℚ) :=
        Nat.cast_le.mpr hn
      push_cast at hq2
      linarith

theorem check_eq_nat (q : Question) (ans : List Char) :
    q.check ans = (if (Question.cleanup ans).isEmpty then false
      else decide (87 * ((Question.cleanup q.answer).length + (Question.cleanup ans).length) ≤
        200 * matchTotal (Question.cleanup q.answer) (Question.cleanup ans))) := by
  unfold Question.check
  by_cases h : (Question.cleanup ans).isEmpty
  · rw [if_pos h, if_pos h]
  · rw [if_neg h, if_neg h]
    rw [decide_eq_decide]
    exact ratioQ_threshold _ _

theorem getCount_bumpCount (c : List (String × Nat)) (k : String) :
    getCount (bumpCount c k) k = getCount c k + 1 := by
  induction c with
  | nil => simp [getCount, bumpCount, List.lookup]
  | cons p rest ih =>
    obtain ⟨k', v⟩ := p
    by_cases h : k' = k
    · subst h
      simp [getCount, bumpCount, List.lookup]
    · have hbeq : (k == k') = false := by
        rw [beq_eq_false_iff_ne]
        exact fun hh => h hh.symm
      simp only [bumpCount, if_neg h, getCount, List.lookup, hbeq]
      exact ih

theorem Game.check_of_match (g : Game) (q : Question) (nick : String) (txt : List Char)
    (hq : g._question = some q) (hchk : q.check txt = true) :
    Game.check g nick txt =
      if g.towin ≤ getCount (bumpCount g.counts nick) nick then
        .ok (.won, { g with counts := bumpCount g.counts nick })
      else .ok (.correct, { g with counts := bumpCount g.counts nick }) := by
  simp [Game.check, hq, hchk]

theorem Game.check_of_nomatch (g : Game) (q : Question) (nick : String) (txt : List Char)
    (hq : g._question = some q) (hchk : q.check txt = false) :
    Game.check g nick txt = .ok (.incorrect, g) := by
  simp [Game.check, hq, hchk]

/-- Claim C1 (amended): the invalid-state hard failure of `Game.check` is
impossible whenever the active game has a current question: in any
controller state whose game holds a question, no chat line — start command
or candidate answer — can make the handler raise the
`ValueError("no question asked")`.  (As the counterexample shows, the
routing predicate alone does not prevent the failure: it is reachable when
a candidate answer arrives while the game's question is unset, e.g.
immediately after a start command and before the first tick.) -/
theorem claimC1_no_invalid_state_when_question_active (s : CState) (g : Game) (q : Question)
    (cmd : String) (rem : List Char) (nick : String) (txt : List Char) (allowed : Bool)
    (seedY : List Question) (hg : s.game = some g) (hq : g._question = some q) :
    TriviaCommand.call s cmd rem nick txt allowed seedY ≠ .error .valueError := by
  cases allowed with
  | false => simp [TriviaCommand.call]
  | true =>
    by_cases hcmd : cmd = "!trivia"
    · simp [TriviaCommand.call, hcmd, hg]
    · simp only [TriviaCommand.call, hg, Bool.not_true, Bool.false_eq_true, if_false,
        if_neg hcmd]
      by_cases hchk : q.check txt = true
      · rw [Game.check_of_match g q nick txt hq hchk]
        by_cases hwin : g.towin ≤ getCount (bumpCount g.counts nick) nick
        · rw [if_pos hwin]
          simp
        · rw [if_neg hwin]
          simp [Game.question, hq]
      · rw [Game.check_of_nomatch g q nick txt hq (by simpa using hchk)]
        simp

/-- Claim C1, counterexample: the state reached right after a start command
(game active, no question pulled yet, deadline unset) is reachable, the
routing predicate admits an arbitrary chat line in it, and handling that
line as a candidate answer raises the invalid-state `ValueError` — so the
claimed unreachability of the failure, "including immediately after a
start command, before the first tick", is false on the code. -/
theorem claimC1_counterexample :
    Reachable ⟨[], some (Game.new 5), 0⟩ ∧
    TriviaCommand.handles ⟨[], some (Game.new 5), 0⟩ "hello" = true ∧
    TriviaCommand.call ⟨[], some (Game.new 5), 0⟩ "hello" [] "bob" ['h', 'i'] true [] =
      .error .valueError := by
  refine ⟨?_, by decide, by rfl⟩
  exact Reachable.chat "!trivia" [] "alice" [] true [] [.started 5] true
    Reachable.init (by decide) (by rfl)

/-- Claim C1, witness: the amended theorem at a concrete state whose game
holds a question. -/
theorem claimC1_witness :
    TriviaCommand.call ⟨[], some ⟨5, [], some qZab⟩, 0⟩ "x" [] "bob" ['h'] true [] ≠
      .error .valueError :=
  claimC1_no_invalid_state_when_question_active _ _ qZab _ _ _ _ _ _ rfl rfl

/-- Claim C2: with a game active and an exhausted pool (a refill yields
nothing), the tick handler is not a no-op, contradicting the claim: on the
announce branch (deadline unset) it sets the deadline and posts a message
(the absent question, which Python renders as the text "None"), and on the
timeout branch (deadline passed) it crashes with an `AttributeError`
dereferencing `.answer` on `None`. -/
theorem claimC2_empty_pool_tick :
    TriviaCommand.onpulse ⟨[], some (Game.new 5), 0⟩ 100 [] =
      .ok (⟨[], some (Game.new 5), 130⟩, [.question none]) ∧
    TriviaCommand.onpulse ⟨[], some (Game.new 5), 130⟩ 200 [] = .error .attributeError :=
  ⟨rfl, rfl⟩

/-- Claim C3 (amended): on a matching answer, `Game.check` increments the
player's tally and returns `Correct` exactly when the incremented score is
still strictly below `towin` (that is, when the score before the check is
strictly below `towin - 1`), and `Won` as soon as the incremented score
reaches `towin` — in particular after `towin` correct answers the next
correct answer yields `Won`.  (The claim's "Correct whenever the score
before the check is strictly below `towin`" is off by one, see the
counterexample.) -/
theorem claimC3_scoring (g : Game) (q : Question) (nick : String) (txt : List Char)
    (hq : g._question = some q) (hchk : q.check txt = true) :
    (getCount g.counts nick + 1 < g.towin →
      Game.check g nick txt = .ok (.correct, { g with counts := bumpCount g.counts nick })) ∧
    (g.towin ≤ getCount g.counts nick + 1 →
      Game.check g nick txt = .ok (.won, { g with counts := bumpCount g.counts nick })) := by
  rw [Game.check_of_match g q nick txt hq hchk, getCount_bumpCount]
  constructor
  · intro h
    rw [if_neg (by omega)]
  · intro h
    rw [if_pos (by omega)]

/-- Claim C3, counterexample: with `towin = 3` and a recorded score of 2
(strictly below `towin`), a correct answer returns `Won`, not `Correct` as
the claim asserts. -/
theorem claimC3_counterexample :
    Game.check ⟨3, [("p", 2)], some qZab⟩ "p" zabL =
      .ok (.won, ⟨3, [("p", 3)], some qZab⟩) ∧
    getCount [("p", 2)] "p" < 3 := by
  have hchk : qZab.check zabL = true := by rw [check_eq_nat]; decide
  refine ⟨?_, by decide⟩
  rw [Game.check_of_match ⟨3, [("p", 2)], some qZab⟩ qZab "p" zabL rfl hchk]
  rw [if_pos (by decide)]
  rfl

/-- Claim C3, witness: the amended theorem at concrete games — a first
correct answer under threshold 5 yields `Correct`, and a correct answer at
score 4 under threshold 5 yields `Won`. -/
theorem claimC3_witness :
    Game.check ⟨5, [], some qZab⟩ "al" zabL = .ok (.correct, ⟨5, [("al", 1)], some qZab⟩) ∧
    Game.check ⟨5, [("al", 4)], some qZab⟩ "al" zabL =
      .ok (.won, ⟨5, [("al", 5)], some qZab⟩) := by
  have hchk : qZab.check zabL = true := by rw [check_eq_nat]; decide
  exact ⟨(claimC3_scoring ⟨5, [], some qZab⟩ qZab "al" zabL rfl hchk).1 (by decide),
    (claimC3_scoring ⟨5, [("al", 4)], some qZab⟩ qZab "al" zabL rfl hchk).2 (by decide)⟩

/-- Claim C4 (amended): on a start command while no game is active, the
threshold falls back to 5 exactly on parse failure of the remainder; a
remainder that parses to an integer `n` yields the threshold
`max 1 n` — so a non-positive `n` is clamped to 1, not replaced by 5 (see
the counterexample). -/
theorem claimC4_threshold (s : CState) (rem : List Char) (nick : String) (txt : List Char)
    (seedY : List Question) (hg : s.game = none) :
    (pyInt rem = none → TriviaCommand.call s "!trivia" rem nick txt true seedY =
      .ok ({ s with deadline := 0, game := some (Game.new 5) }, [.started 5], true)) ∧
    (∀ n : Int, pyInt rem = some n → TriviaCommand.call s "!trivia" rem nick txt true seedY =
      .ok ({ s with deadline := 0, game := some (Game.new (max 1 n).toNat) },
        [.started (max 1 n).toNat], true)) := by
  constructor
  · intro h
    simp [TriviaCommand.call, hg, h]
  · intro n h
    simp [TriviaCommand.call, hg, h]

/-- Claim C4, counterexample: the remainder "0" parses to the non-positive
integer 0, yet the created game's threshold is 1 (the `max 1` clamp), not
5 as the claim asserts. -/
theorem claimC4_counterexample :
    TriviaCommand.call ⟨[], none, 0⟩ "!trivia" ['0'] "al" [] true [] =
      .ok (⟨[], some (Game.new 1), 0⟩, [.started 1], true) ∧
    pyInt ['0'] = some 0 ∧ (1 : Nat) ≠ 5 :=
  ⟨rfl, by decide, by decide⟩

/-- Claim C4, witness: the amended theorem at the unparsable remainder
"abc" (threshold 5) and at the remainder "0" (threshold 1). -/
theorem claimC4_witness :
    TriviaCommand.call ⟨[], none, 0⟩ "!trivia" ['a', 'b', 'c'] "al" [] true [] =
      .ok (⟨[], some (Game.new 5), 0⟩, [.started 5], true) ∧
    TriviaCommand.call ⟨[], none, 0⟩ "!trivia" ['0'] "al" [] true [] =
      .ok (⟨[], some (Game.new 1), 0⟩, [.started 1], true) := by
  refine ⟨(claimC4_threshold ⟨[], none, 0⟩ ['a', 'b', 'c'] "al" [] [] rfl).1 (by decide), ?_⟩
  have h := (claimC4_threshold ⟨[], none, 0⟩ ['0'] "al" [] [] rfl).2 0 (by decide)
  exact h

/-- Claim C5 (amended): the seed refill skips a source B item exactly when
its effective point value exceeds 800 or its rendered question exceeds 300
characters, where the effective value of a missing or zero declared value
is the default 1000 — which is above the cutoff, so such items are
skipped, not enqueued (see the counterexample). -/
theorem claimC5_sourceB_skip (i : ItemB) :
    (sourceBQuestions [i] = [] ↔ 800 < effValue i ∨ 300 < (renderB i).length) ∧
    ((i.value = none ∨ i.value = some 0) → effValue i = 1000) := by
  constructor
  · unfold sourceBQuestions
    simp only [List.filterMap_cons, List.filterMap_nil]
    split_ifs with h1 h2
    · simp [h1]
    · simp [h1, h2]
    · simp [h1, h2]
  · intro h
    rcases h with h | h <;> simp [effValue, h]

/-- Claim C5, counterexample: an item with a missing point value and an
item with a zero point value are both skipped during the source B refill,
even though their rendered question is well under 300 characters — the
claim asserts they would be enqueued. -/
theorem claimC5_counterexample :
    sourceBQuestions [⟨none, ['q'], ['a']⟩] = [] ∧
    sourceBQuestions [⟨some 0, ['q'], ['a']⟩] = [] ∧
    (renderB ⟨none, ['q'], ['a']⟩).length ≤ 300 :=
  ⟨by decide, by decide, by decide⟩

/-- Claim C5, witness: the amended theorem at the missing-value item. -/
theorem claimC5_witness :
    sourceBQuestions [⟨none, ['q'], ['a']⟩] = [] ∧
    effValue ⟨none, ['q'], ['a']⟩ = 1000 :=
  ⟨(claimC5_sourceB_skip ⟨none, ['q'], ['a']⟩).1.mpr (Or.inl (by decide)),
    (claimC5_sourceB_skip ⟨none, ['q'], ['a']⟩).2 (Or.inl rfl)⟩

/-- Claim C6 (amended): `check(expected, "")` is false for every expected
answer; and `check(expected, expected)` is true whenever the normalized
expected answer is nonempty — when it normalizes to the empty string (for
example "the"), the submission is rejected by the empty-submission guard
and the check is false (see the counterexample). -/
theorem claimC6_check (q : Question) :
    q.check [] = false ∧
    (Question.cleanup q.answer ≠ [] → q.check q.answer = true) := by
  constructor
  · rfl
  · intro h
    unfold Question.check
    have hie : (Question.cleanup q.answer).isEmpty = false := by
      simpa [List.isEmpty_iff] using h
    simp only [hie, Bool.false_eq_true, if_false]
    rw [ratioQ_self _ h, decide_eq_true_eq]
    norm_num

/-- Claim C6, counterexample: for the expected answer "the" — which
normalizes to the empty string — submitting exactly the expected answer
fails, refuting "check(expected, expected) is always true". -/
theorem claimC6_counterexample :
    Question.check ⟨0, ['q'], ['t', 'h', 'e']⟩ ['t', 'h', 'e'] = false := by
  rw [check_eq_nat]; decide

/-- Claim C6, witness: the amended theorem at the concrete answer "zabcd",
whose normal form is nonempty. -/
theorem claimC6_witness :
    Question.check qZab [] = false ∧ Question.check qZab qZab.answer = true :=
  ⟨(claimC6_check qZab).1, (claimC6_check qZab).2 (by decide)⟩

/-- Claim C7 (amended): the similarity ratio lies in the closed interval
[0, 1] for every pair of inputs.  (It is not symmetric under swapping the
inputs — see the counterexample — so only the range half of the claim
survives.) -/
theorem claimC7_ratio_bounds (a b : List Char) : 0 ≤ ratioQ a b ∧ ratioQ a b ≤ 1 := by
  unfold ratioQ
  by_cases hT : a.length + b.length = 0
  · rw [if_pos hT]
    norm_num
  · rw [if_neg hT]
    obtain ⟨hma, hmb⟩ := matchTotal_le a b
    have hTq : (0 : ℚ) < (a.length : ℚ) + (b.length : ℚ) := by
      have h1 := Nat.pos_of_ne_zero hT
      have h2 : ((0 : ℕ) : ℚ) < ((a.length + b.length : ℕ) : ℚ) := Nat.cast_lt.mpr h1
      push_cast at h2
      linarith
    constructor
    · positivity
    · rw [div_le_one hTq]
      have h3 : 2 * matchTotal a b ≤ a.length + b.length := by omega
      have h4 : ((2 * matchTotal a b : ℕ) : ℚ) ≤ ((a.length + b.length : ℕ) : ℚ) :=
        Nat.cast_le.mpr h3
      push_cast at h4
      linarith

/-- Claim C7, counterexample: the ratio is not symmetric — on the
normalized strings "zabcd" and "cdzwab" the matcher finds total match size
3 in one direction (blocks "ab" then "z" on the left) but only 2 in the
other (the earlier tie "cd" suppresses the other blocks), giving ratios
6/11 and 4/11. -/
theorem claimC7_counterexample :
    ratioQ zabL cdzwabL = 6 / 11 ∧ ratioQ cdzwabL zabL = 4 / 11 ∧
    ratioQ zabL cdzwabL ≠ ratioQ cdzwabL zabL := by
  have h1 : matchTotal zabL cdzwabL = 3 := by decide
  have h2 : matchTotal cdzwabL zabL = 2 := by decide
  have e1 : ratioQ zabL cdzwabL = 6 / 11 := by
    unfold ratioQ
    rw [h1]
    norm_num [zabL, cdzwabL]
  have e2 : ratioQ cdzwabL zabL = 4 / 11 := by
    unfold ratioQ
    rw [h2]
    norm_num [zabL, cdzwabL]
  refine ⟨e1, e2, ?_⟩
  rw [e1, e2]
  norm_num

/-- Claim C9: with a game active, a resolvable question and the deadline
unset, the first tick sets the deadline to `now + 30` and posts the
question once; every further tick before that deadline leaves the state
unchanged and posts nothing. -/
theorem claimC9_first_tick (s : CState) (g : Game) (now : Nat) (seedY : List Question)
    (q : Question) (g2 : Game) (pool2 : List Question)
    (hg : s.game = some g) (hd : s.deadline = 0)
    (hres : Game.question g s.pool seedY = (some q, g2, pool2)) :
    TriviaCommand.onpulse s now seedY =
      .ok (⟨pool2, some g2, now + 30⟩, [.question (some q)]) ∧
    ∀ (now2 : Nat) (seedY2 : List Question), now2 < now + 30 →
      TriviaCommand.onpulse ⟨pool2, some g2, now + 30⟩ now2 seedY2 =
        .ok (⟨pool2, some g2, now + 30⟩, []) := by
  constructor
  · simp only [TriviaCommand.onpulse, hg, hd, if_pos rfl, hres]
    simp
  · intro now2 seedY2 hlt
    simp only [TriviaCommand.onpulse]
    rw [if_neg (by omega), if_neg (by omega)]

/-- Claim C9, witness: the theorem at a concrete state — the tick at time
10 announces and sets the deadline to 40; a tick at time 20 is a no-op. -/
theorem claimC9_witness :
    TriviaCommand.onpulse ⟨[], some ⟨5, [], some qZab⟩, 0⟩ 10 [] =
      .ok (⟨[], some ⟨5, [], some qZab⟩, 40⟩, [.question (some qZab)]) ∧
    TriviaCommand.onpulse ⟨[], some ⟨5, [], some qZab⟩, 40⟩ 20 [] =
      .ok (⟨[], some ⟨5, [], some qZab⟩, 40⟩, []) := by
  have h := claimC9_first_tick ⟨[], some ⟨5, [], some qZab⟩, 0⟩ ⟨5, [], some qZab⟩ 10 [] qZab
    ⟨5, [], some qZab⟩ [] rfl rfl rfl
  exact ⟨h.1, h.2 20 [] (by omega)⟩

/-- Claim C10: an incorrect answer is a full no-op — `Game.check` returns
`Incorrect` with the game object unchanged (scores and current question
included), and the handler returns the state unchanged, posts nothing and
reports the event as not consumed. -/
theorem claimC10_incorrect_noop (s : CState) (g : Game) (q : Question) (cmd : String)
    (rem : List Char) (nick : String) (txt : List Char) (seedY : List Question)
    (hg : s.game = some g) (hq : g._question = some q) (hcmd : cmd ≠ "!trivia")
    (hchk : q.check txt = false) :
    Game.check g nick txt = .ok (.incorrect, g) ∧
    TriviaCommand.call s cmd rem nick txt true seedY = .ok (s, [], false) := by
  have h1 := Game.check_of_nomatch g q nick txt hq hchk
  refine ⟨h1, ?_⟩
  simp only [TriviaCommand.call, Bool.not_true, Bool.false_eq_true, if_false,
    if_neg hcmd, hg, h1]

/-- Claim C10, witness: the theorem at a concrete state with the
non-matching submission "qqqq" against the expected answer "zabcd". -/
theorem claimC10_witness :
    Game.check ⟨5, [], some qZab⟩ "bob" ['q', 'q', 'q', 'q'] =
      .ok (.incorrect, ⟨5, [], some qZab⟩) ∧
    TriviaCommand.call ⟨[], some ⟨5, [], some qZab⟩, 7⟩ "hello" [] "bob" ['q', 'q', 'q', 'q']
      true [] = .ok (⟨[], some ⟨5, [], some qZab⟩, 7⟩, [], false) :=
  claimC10_incorrect_noop ⟨[], some ⟨5, [], some qZab⟩, 7⟩ ⟨5, [], some qZab⟩ qZab "hello"
    [] "bob" ['q', 'q', 'q', 'q'] [] rfl rfl (by decide) (by rw [check_eq_nat]; decide)
